import Mathlib

/-!
Verification of the noise-cancellation repository's core signal chain.

The repository contains three JavaScript variants of the same predictive
noise-suppression pipeline:

* the low-latency variant (`src/src/App.jsx`): buffer size 256, history
  capacity 512, pattern length 128, search window 8, stride-4 similarity,
  K = 1 best match, mix law `0.7*(-input) + 0.3*prediction`;
* the full variant (`NoiseProcessor.js`, first part of
  `src/unnamed/part_000`): buffer size 1024, history capacity 2048,
  pattern length 512, full-history search, K = 3 best matches with
  weights [0.5, 0.3, 0.2], pure-prediction mix law;
* the car/Bluetooth variants (second part of `src/unnamed/part_000` and
  `src/unnamed/part_001`): inversion-only mix law, 16-sample band-energy
  ring buffers with two-level adaptive gain, and a 200 ms circular delay
  buffer.

Audio samples are JavaScript numbers; we embed them as exact rationals
(`ℚ`), so every decimal literal of the source (0.7, 0.3, 0.1, 1.2, 0.8,
-15, …) is carried exactly and every definition is executable and
decidable.  Frames are lists of samples.  JavaScript array reads that the
source explicitly coerces with `|| 0` are embedded as `List.getD _ _ 0`;
reads that are always in range during real operation are embedded the
same way, and theorems that depend on sample values carry the length
hypotheses under which the embedding and the source agree exactly.
-/

/-- A frame: an ordered sequence of audio samples (JS `Array`/`Float32Array`
of numbers, embedded as exact rationals). -/
abbrev Frame := List ℚ

namespace Shared

/-- JS `Math.abs`, written out so that every definition below reduces in
the kernel on concrete rational inputs. -/
def mabs (x : ℚ) : ℚ := if x < 0 then -x else x

theorem mabs_eq_abs (x : ℚ) : mabs x = |x| := by
  unfold mabs
  by_cases h : x < 0
  · rw [if_pos h, abs_of_neg h]
  · rw [if_neg h, abs_of_nonneg (not_lt.mp h)]

/-- The history push shared verbatim by both predictive variants:
`pastPatterns.push(frame); if (pastPatterns.length > cap) pastPatterns.shift()`.
`List.tail` is JS `shift()` (drop the oldest, index 0). -/
def pushPattern (cap : Nat) (hist : List Frame) (f : Frame) : List Frame :=
  if cap < (hist ++ [f]).length then (hist ++ [f]).tail else hist ++ [f]

/-- Appending a whole sequence of captured frames to an initially empty
store, one `pushPattern` per frame. -/
def pushAll (cap : Nat) (fs : List Frame) : List Frame :=
  fs.foldl (pushPattern cap) []

theorem pushPattern_length_le (cap : Nat) (hist : List Frame) (f : Frame)
    (h : hist.length ≤ cap) : (pushPattern cap hist f).length ≤ cap := by
  unfold pushPattern
  split
  · simp only [List.length_tail, List.length_append, List.length_singleton]
    omega
  · rename_i hc
    simp only [not_lt, List.length_append, List.length_singleton] at hc
    simpa using hc

theorem foldl_pushPattern_drop (cap : Nat) :
    ∀ (fs init : List Frame), init.length ≤ cap →
      fs.foldl (pushPattern cap) init = (init ++ fs).drop ((init ++ fs).length - cap) := by
  intro fs
  induction fs with
  | nil =>
    intro init hinit
    simp only [List.foldl_nil, List.append_nil]
    rw [Nat.sub_eq_zero_of_le hinit, List.drop_zero]
  | cons f fs ih =>
    intro init hinit
    rw [List.foldl_cons]
    rw [ih (pushPattern cap init f) (pushPattern_length_le cap init f hinit)]
    unfold pushPattern
    by_cases hc : cap < (init ++ [f]).length
    · simp only [hc, if_true]
      have hne : init ++ [f] ≠ [] := by simp
      have htail : (init ++ [f]).tail ++ fs = ((init ++ [f]) ++ fs).tail := by
        cases init with
        | nil => simp
        | cons a l => simp
      rw [htail]
      have hassoc : (init ++ [f]) ++ fs = init ++ f :: fs := by simp
      rw [hassoc]
      rw [List.drop_tail]
      congr 1
      simp only [List.length_tail, List.length_append, List.length_singleton,
        List.length_cons, List.length_nil] at hc ⊢
      omega
    · simp only [hc, if_false]
      have hassoc : (init ++ [f]) ++ fs = init ++ f :: fs := by simp
      rw [hassoc]

theorem pushAll_eq_drop (cap : Nat) (fs : List Frame) :
    pushAll cap fs = fs.drop (fs.length - cap) := by
  unfold pushAll
  have := foldl_pushPattern_drop cap fs [] (by simp)
  simpa using this

theorem pushAll_length_le (cap : Nat) (fs : List Frame) :
    (pushAll cap fs).length ≤ cap := by
  rw [pushAll_eq_drop]
  rw [List.length_drop]
  omega

theorem pushAll_capacity_succ (cap : Nat) (f0 : Frame) (rest : List Frame)
    (hr : rest.length = cap) : pushAll cap (f0 :: rest) = rest := by
  rw [pushAll_eq_drop]
  simp only [List.length_cons, hr]
  have : cap + 1 - cap = 1 := by omega
  rw [this, List.drop_one, List.tail_cons]

end Shared

namespace App

/-! The low-latency variant, `src/src/App.jsx`. -/

def BUFFER_SIZE : Nat := 256
def PREDICTION_BUFFER_SIZE : Nat := 512
def PATTERN_LENGTH : Nat := 128

/-- `pastPatternsRef.current.push(...); if (... > PREDICTION_BUFFER_SIZE) shift()`. -/
def storePattern (hist : List Frame) (f : Frame) : List Frame :=
  Shared.pushPattern PREDICTION_BUFFER_SIZE hist f

end App

namespace NP

/-! The full variant, class `NoiseProcessor` (`src/unnamed/part_000`). -/

def predictionBufferSize : Nat := 2048
def patternLength : Nat := 512

/-- `this.pastPatterns.push(...); if (... > this.config.predictionBufferSize) shift()`. -/
def storePattern (hist : List Frame) (f : Frame) : List Frame :=
  Shared.pushPattern predictionBufferSize hist f

end NP

/-- C1: For every sequence of appended frames, the pattern history store's
length never exceeds its configured capacity (512 in the low-latency
variant, 2048 in the full variant); after capacity+1 appends the store
holds exactly the 512 (resp. 2048) most recent frames in temporal order,
so the first-appended frame is no longer present (when it does not recur)
and the most recently appended frame is present. -/
theorem historyStore_bounded_fifo :
    (∀ fs : List Frame, (fs.foldl App.storePattern []).length ≤ 512) ∧
    (∀ fs : List Frame, (fs.foldl NP.storePattern []).length ≤ 2048) ∧
    (∀ (f0 : Frame) (rest : List Frame), rest.length = 512 →
      (f0 :: rest).foldl App.storePattern [] = rest) ∧
    (∀ (f0 : Frame) (rest : List Frame), rest.length = 2048 →
      (f0 :: rest).foldl NP.storePattern [] = rest) ∧
    (∀ (f0 : Frame) (rest : List Frame), rest.length = 512 → f0 ∉ rest →
      f0 ∉ (f0 :: rest).foldl App.storePattern []) ∧
    (∀ (f0 fl : Frame) (rest : List Frame), rest.length = 512 →
      (f0 :: rest).getLast? = some fl →
      fl ∈ (f0 :: rest).foldl App.storePattern []) := by
  have happ : ∀ fs : List Frame, fs.foldl App.storePattern [] = Shared.pushAll 512 fs := by
    intro fs; rfl
  have hnp : ∀ fs : List Frame, fs.foldl NP.storePattern [] = Shared.pushAll 2048 fs := by
    intro fs; rfl
  refine ⟨?_, ?_, ?_, ?_, ?_, ?_⟩
  · intro fs; rw [happ]; exact Shared.pushAll_length_le 512 fs
  · intro fs; rw [hnp]; exact Shared.pushAll_length_le 2048 fs
  · intro f0 rest hr; rw [happ]; exact Shared.pushAll_capacity_succ 512 f0 rest hr
  · intro f0 rest hr; rw [hnp]; exact Shared.pushAll_capacity_succ 2048 f0 rest hr
  · intro f0 rest hr hmem
    rw [happ, Shared.pushAll_capacity_succ 512 f0 rest hr]
    exact hmem
  · intro f0 fl rest hr hlast
    rw [happ, Shared.pushAll_capacity_succ 512 f0 rest hr]
    have hne : rest ≠ [] := by
      intro h; rw [h] at hr; simp at hr
    rw [List.getLast?_cons, List.getLast?_eq_getLast rest hne] at hlast
    simp only [Option.getD_some, Option.some.injEq] at hlast
    rw [← hlast]
    exact List.getLast_mem hne

/-- Witness for C1 at a concrete input: a store at capacity 512 holding
distinct-from-`[1]` frames, appended with one more frame. -/
theorem historyStore_bounded_fifo_witness :
    (([1] : Frame) :: List.replicate 512 ([0] : Frame)).foldl App.storePattern []
        = List.replicate 512 ([0] : Frame) ∧
    ([1] : Frame) ∉ (([1] : Frame) :: List.replicate 512 ([0] : Frame)).foldl
        App.storePattern [] := by
  have hlen : (List.replicate 512 ([0] : Frame)).length = 512 :=
    List.length_replicate 512 _
  have hmem : ([1] : Frame) ∉ List.replicate 512 ([0] : Frame) := by
    intro h
    have h2 := List.eq_of_mem_replicate h
    simp only [List.cons.injEq, and_true] at h2
    exact one_ne_zero h2
  exact ⟨historyStore_bounded_fifo.2.2.1 [1] _ hlen,
    historyStore_bounded_fifo.2.2.2.2.1 [1] _ hlen hmem⟩

namespace App

/-- `currentPattern.slice(-PATTERN_LENGTH)`: the trailing window of length
at most 128 (JS `slice` with a negative start clamps at 0, which Nat
subtraction mirrors exactly). -/
def recentPattern (currentPattern : Frame) : Frame :=
  currentPattern.drop (currentPattern.length - PATTERN_LENGTH)

/-- The strided similarity of the low-latency variant:
`for (let j = 0; j < PATTERN_LENGTH; j += 4) similarity +=
Math.abs(pattern[j] - recentPattern[j])`. The probed positions are
`j = 4*k` for `k < 32`. -/
def similarity (pattern recent : Frame) : ℚ :=
  (List.range 32).foldl
    (fun s k => s + Shared.mabs (pattern.getD (4 * k) 0 - recent.getD (4 * k) 0)) 0

/-- `recentHistoryStart = Math.max(0, pastPatterns.length - 8)`. -/
def recentHistoryStart (hist : List Frame) : Nat := hist.length - 8

/-- `similarity < bestSimilarity` where `bestSimilarity` may still be its
initial value `Infinity`, modelled as `none`: every finite similarity is
below `Infinity`. -/
def ltBest (s : ℚ) : Option ℚ → Bool
  | none => true
  | some b => decide (s < b)

/-- The selection loop: `bestSimilarity` starts at `Infinity` (`none`),
`bestMatchIdx` at 0, and a candidate replaces the incumbent only when its
similarity is strictly smaller (`if (similarity < bestSimilarity)`). -/
def bestLoop (hist : List Frame) (recent : Frame) :
    List Nat → Option ℚ × Nat → Option ℚ × Nat
  | [], acc => acc
  | i :: is, acc =>
      bestLoop hist recent is
        (if ltBest (similarity (hist.getD i []) recent) acc.1
         then (some (similarity (hist.getD i []) recent), i) else acc)

/-- The index selected by the scan over `[recentHistoryStart, length)`. -/
def bestMatchIdx (hist : List Frame) (currentPattern : Frame) : Nat :=
  (bestLoop hist (recentPattern currentPattern)
    (List.range' (recentHistoryStart hist) (hist.length - recentHistoryStart hist))
    (none, 0)).2

/-- `predictNextPattern` of the low-latency variant: identity fallback
when fewer than 2 history entries, otherwise the best-matching stored
frame (`pastPatterns[bestMatchIdx] || currentPattern`; the `||` default
is unreachable for an in-range index, which `getD` mirrors). -/
def predictNextPattern (hist : List Frame) (currentPattern : Frame) : Frame :=
  if hist.length < 2 then currentPattern
  else hist.getD (bestMatchIdx hist currentPattern) currentPattern

end App

namespace NP

/-- `this.predictionWeights = [0.5, 0.3, 0.2]` as exact rationals. -/
def predictionWeights : List ℚ := [1/2, 3/10, 1/5]

/-- `currentPattern.slice(-this.config.patternLength)`. -/
def recentPattern (currentPattern : Frame) : Frame :=
  currentPattern.drop (currentPattern.length - patternLength)

/-- Full-precision similarity: sum of absolute differences over
`compareLength = Math.min(patternLength, pattern.length)` samples. -/
def similarity (recent pattern : Frame) : ℚ :=
  (List.range (min patternLength pattern.length)).foldl
    (fun s i => s + Shared.mabs (pattern.getD i 0 - recent.getD i 0)) 0

/-- `similarities.map((sim, idx) => ({sim, idx}))`: each candidate's
similarity paired with its history index. -/
def indexedSims (hist : List Frame) (recent : Frame) : List (ℚ × Nat) :=
  (List.range hist.length).map fun i => (similarity recent (hist.getD i []), i)

/-- One step of a stable ascending insertion sort on the `sim` component:
a new element passes an incumbent only when strictly smaller, so equal
similarities keep their original (index-ascending) order — exactly the
guarantee of JS `Array.prototype.sort` with comparator
`(a, b) => a.sim - b.sim`, which is stable. -/
def insertBySim (x : ℚ × Nat) : List (ℚ × Nat) → List (ℚ × Nat)
  | [] => [x]
  | y :: ys => if x.1 < y.1 then x :: y :: ys else y :: insertBySim x ys

/-- Stable sort of the similarity/index pairs, ascending by similarity. -/
def sortBySim (l : List (ℚ × Nat)) : List (ℚ × Nat) :=
  l.foldl (fun acc x => insertBySim x acc) []

/-- `.sort((a, b) => a.sim - b.sim).slice(0, 3).map(item => item.idx)`. -/
def mostSimilarIndices (hist : List Frame) (recent : Frame) : List Nat :=
  ((sortBySim (indexedSims hist recent)).take 3).map Prod.snd

/-- The synthesis loop: `prediction[i] += (pattern[i] || 0) * weight` for
each selected index, with `weight = this.predictionWeights[weightIdx]`;
the output is the fresh `Float32Array(patternLength)`. -/
def synthesize (hist : List Frame) (idxs : List Nat) : Frame :=
  (List.range patternLength).map fun i =>
    (idxs.enum).foldl
      (fun acc wk =>
        acc + ((hist.getD wk.2 []).getD i 0) * (predictionWeights.getD wk.1 0)) 0

/-- `_predictNextPattern` of the full variant. -/
def predictNextPattern (hist : List Frame) (currentPattern : Frame) : Frame :=
  if hist.length < 2 then currentPattern
  else synthesize hist (mostSimilarIndices hist (recentPattern currentPattern))

end NP


namespace App

/-- The similarity score of history candidate `i` against the current
trailing window, as the scan computes it. -/
def simOf (hist : List Frame) (recent : Frame) (i : Nat) : ℚ :=
  similarity (hist.getD i []) recent

theorem similarity_congr (p p' r : Frame)
    (h : ∀ k, k < 32 → p.getD (4 * k) 0 = p'.getD (4 * k) 0) :
    similarity p r = similarity p' r := by
  unfold similarity
  refine List.foldl_ext _ _ _ ?_
  intro a k hk
  rw [h k (List.mem_range.mp hk)]

theorem ltBest_none (s : ℚ) : ltBest s none = true := rfl

theorem ltBest_some (s b : ℚ) : ltBest s (some b) = decide (s < b) := rfl

theorem ltBest_true_of (s : ℚ) (o : Option ℚ) (h : ∀ b, o = some b → s < b) :
    ltBest s o = true := by
  cases o with
  | none => exact ltBest_none s
  | some b =>
    rw [ltBest_some]
    simp only [decide_eq_true_eq]
    exact h b rfl

/-- The scan returns either its initial accumulator untouched (every
candidate failed the strict-improvement test), or the pair of the first
index attaining the minimum similarity among the scanned candidates and
that similarity. -/
theorem bestLoop_spec (hist : List Frame) (recent : Frame) :
    ∀ is : List Nat, is.Pairwise (· < ·) → ∀ acc : Option ℚ × Nat,
      (bestLoop hist recent is acc = acc ∧
        ∀ i ∈ is, ltBest (simOf hist recent i) acc.1 = false) ∨
      (∃ m, bestLoop hist recent is acc = (some (simOf hist recent m), m) ∧ m ∈ is ∧
        ltBest (simOf hist recent m) acc.1 = true ∧
        (∀ i ∈ is, ¬ simOf hist recent i < simOf hist recent m) ∧
        (∀ j ∈ is, j < m → simOf hist recent m < simOf hist recent j)) := by
  intro is
  induction is with
  | nil =>
    intro _ acc
    exact Or.inl ⟨rfl, fun i hi => absurd hi (List.not_mem_nil i)⟩
  | cons i is ih =>
    intro hpw acc
    have hpw2 := List.pairwise_cons.mp hpw
    cases hlt : ltBest (simOf hist recent i) acc.1 with
    | true =>
      have hstep : bestLoop hist recent (i :: is) acc =
          bestLoop hist recent is (some (simOf hist recent i), i) := by
        show bestLoop hist recent is
            (if ltBest (simOf hist recent i) acc.1
             then (some (simOf hist recent i), i) else acc) = _
        rw [hlt]
        simp
      rcases ih hpw2.2 (some (simOf hist recent i), i) with
        ⟨heq, hall⟩ | ⟨m, hm_eq, hm_mem, hm_lt, hm_lb, hm_first⟩
      · refine Or.inr ⟨i, ?_, List.mem_cons_self i is, hlt, ?_, ?_⟩
        · rw [hstep, heq]
        · intro p hp
          rcases List.mem_cons.mp hp with rfl | hp2
          · exact lt_irrefl _
          · have := hall p hp2
            rw [ltBest_some] at this
            simpa using this
        · intro j hj hji
          rcases List.mem_cons.mp hj with rfl | hj2
          · exact absurd hji (lt_irrefl j)
          · exact absurd hji (not_lt.mpr (le_of_lt (hpw2.1 j hj2)))
      · have hmi : simOf hist recent m < simOf hist recent i := by
          have := hm_lt
          rw [ltBest_some] at this
          simpa using this
        refine Or.inr ⟨m, ?_, List.mem_cons_of_mem i hm_mem, ?_, ?_, ?_⟩
        · rw [hstep, hm_eq]
        · refine ltBest_true_of _ _ ?_
          intro b hb
          rw [hb, ltBest_some] at hlt
          simp only [decide_eq_true_eq] at hlt
          exact lt_trans hmi hlt
        · intro p hp
          rcases List.mem_cons.mp hp with rfl | hp2
          · exact lt_asymm hmi
          · exact hm_lb p hp2
        · intro j hj hji
          rcases List.mem_cons.mp hj with rfl | hj2
          · exact hmi
          · exact hm_first j hj2 hji
    | false =>
      have hstep : bestLoop hist recent (i :: is) acc = bestLoop hist recent is acc := by
        show bestLoop hist recent is
            (if ltBest (simOf hist recent i) acc.1
             then (some (simOf hist recent i), i) else acc) = _
        rw [hlt]
        simp
      obtain ⟨b, hb, hnotlt⟩ : ∃ b, acc.1 = some b ∧ ¬ simOf hist recent i < b := by
        cases hacc : acc.1 with
        | none => rw [hacc, ltBest_none] at hlt; exact absurd hlt (by simp)
        | some b =>
          rw [hacc, ltBest_some] at hlt
          simp only [decide_eq_false_iff_not] at hlt
          exact ⟨b, rfl, hlt⟩
      rcases ih hpw2.2 acc with
        ⟨heq, hall⟩ | ⟨m, hm_eq, hm_mem, hm_lt, hm_lb, hm_first⟩
      · refine Or.inl ⟨by rw [hstep, heq], ?_⟩
        intro p hp
        rcases List.mem_cons.mp hp with rfl | hp2
        · exact hlt
        · exact hall p hp2
      · have hmb : simOf hist recent m < b := by
          have := hm_lt
          rw [hb, ltBest_some] at this
          simpa using this
        have hmi : simOf hist recent m < simOf hist recent i :=
          lt_of_lt_of_le hmb (not_lt.mp hnotlt)
        refine Or.inr ⟨m, by rw [hstep, hm_eq], List.mem_cons_of_mem i hm_mem,
          hm_lt, ?_, ?_⟩
        · intro p hp
          rcases List.mem_cons.mp hp with rfl | hp2
          · exact lt_asymm hmi
          · exact hm_lb p hp2
        · intro j hj hji
          rcases List.mem_cons.mp hj with rfl | hj2
          · exact hmi
          · exact hm_first j hj2 hji

end App

namespace App

theorem mem_window (lo n m : Nat) : m ∈ List.range' lo n ↔ lo ≤ m ∧ m < lo + n := by
  rw [List.mem_range']
  constructor
  · rintro ⟨i, hi, rfl⟩
    omega
  · intro h
    exact ⟨m - lo, by omega, by omega⟩

/-- The selected index lies in the search window, its similarity is minimal
there, and every strictly older window index has strictly larger
similarity (so the scan resolves ties toward the oldest index). -/
theorem bestMatchIdx_spec (hist : List Frame) (c : Frame) (h2 : 2 ≤ hist.length) :
    recentHistoryStart hist ≤ bestMatchIdx hist c ∧
    bestMatchIdx hist c < hist.length ∧
    (∀ j, recentHistoryStart hist ≤ j → j < hist.length →
      simOf hist (recentPattern c) (bestMatchIdx hist c) ≤ simOf hist (recentPattern c) j) ∧
    (∀ j, recentHistoryStart hist ≤ j → j < bestMatchIdx hist c →
      simOf hist (recentPattern c) (bestMatchIdx hist c) < simOf hist (recentPattern c) j) := by
  have hpw : (List.range' (recentHistoryStart hist)
      (hist.length - recentHistoryStart hist)).Pairwise (· < ·) :=
    List.pairwise_lt_range' _ _
  have hlen : recentHistoryStart hist +
      (hist.length - recentHistoryStart hist) = hist.length := by
    unfold recentHistoryStart
    omega
  rcases bestLoop_spec hist (recentPattern c)
      (List.range' (recentHistoryStart hist) (hist.length - recentHistoryStart hist))
      hpw (none, 0) with
    ⟨_, hall⟩ | ⟨m, hm_eq, hm_mem, _, hm_lb, hm_first⟩
  · exfalso
    have hn : 0 < hist.length - recentHistoryStart hist := by
      unfold recentHistoryStart
      omega
    have hmem0 : recentHistoryStart hist ∈ List.range' (recentHistoryStart hist)
        (hist.length - recentHistoryStart hist) := by
      rw [mem_window]
      omega
    have := hall (recentHistoryStart hist) hmem0
    rw [show ((none : Option ℚ), 0).1 = none from rfl, ltBest_none] at this
    exact absurd this (by simp)
  · have hbm : bestMatchIdx hist c = m := by
      unfold bestMatchIdx
      rw [hm_eq]
    rw [hbm]
    have hmw := (mem_window _ _ m).mp hm_mem
    refine ⟨hmw.1, by omega, ?_, ?_⟩
    · intro j hj1 hj2
      have hjw : j ∈ List.range' (recentHistoryStart hist)
          (hist.length - recentHistoryStart hist) := by
        rw [mem_window]
        omega
      exact not_lt.mp (hm_lb j hjw)
    · intro j hj1 hj2
      have hjw : j ∈ List.range' (recentHistoryStart hist)
          (hist.length - recentHistoryStart hist) := by
        rw [mem_window]
        omega
      exact hm_first j hjw hj2

end App

namespace NP

/-- The similarity score of history candidate `i` against the current
trailing window. -/
def simOf (hist : List Frame) (recent : Frame) (i : Nat) : ℚ :=
  similarity recent (hist.getD i [])

/-- Strict lexicographic order on (similarity, index) pairs: smaller
similarity first, and on equal similarities the smaller (older) index
first — the order a stable ascending sort by similarity realises on
index-ascending input. -/
def lexLt (a b : ℚ × Nat) : Prop := a.1 < b.1 ∨ (a.1 = b.1 ∧ a.2 < b.2)

theorem insertBySim_perm (x : ℚ × Nat) (l : List (ℚ × Nat)) :
    List.Perm (insertBySim x l) (x :: l) := by
  induction l with
  | nil => exact List.Perm.refl _
  | cons y ys ih =>
    unfold insertBySim
    by_cases h : x.1 < y.1
    · rw [if_pos h]
    · rw [if_neg h]
      exact (List.Perm.cons y ih).trans (List.Perm.swap x y ys)

theorem insertBySim_pairwise (x : ℚ × Nat) (l : List (ℚ × Nat))
    (hl : l.Pairwise lexLt) (hidx : ∀ y ∈ l, y.2 < x.2) :
    (insertBySim x l).Pairwise lexLt := by
  induction l with
  | nil => simp [insertBySim]
  | cons y ys ih =>
    rw [List.pairwise_cons] at hl
    obtain ⟨hy, hys⟩ := hl
    unfold insertBySim
    by_cases h : x.1 < y.1
    · rw [if_pos h]
      rw [List.pairwise_cons]
      refine ⟨?_, List.pairwise_cons.mpr ⟨hy, hys⟩⟩
      intro z hz
      rcases List.mem_cons.mp hz with rfl | hz2
      · exact Or.inl h
      · rcases hy z hz2 with hlt | ⟨heq, _⟩
        · exact Or.inl (lt_trans h hlt)
        · exact Or.inl (lt_of_lt_of_eq h heq)
    · rw [if_neg h]
      rw [List.pairwise_cons]
      constructor
      · intro z hz
        rcases List.mem_cons.mp ((insertBySim_perm x ys).mem_iff.mp hz) with rfl | hz2
        · by_cases h2 : y.1 < z.1
          · exact Or.inl h2
          · exact Or.inr ⟨le_antisymm (not_lt.mp h) (not_lt.mp h2),
              hidx y (List.mem_cons_self y ys)⟩
        · exact hy z hz2
      · exact ih hys (fun w hw => hidx w (List.mem_cons_of_mem y hw))

theorem sortFold_spec :
    ∀ (l acc : List (ℚ × Nat)),
      acc.Pairwise lexLt →
      l.Pairwise (fun a b => a.2 < b.2) →
      (∀ y ∈ acc, ∀ x ∈ l, y.2 < x.2) →
      (l.foldl (fun acc x => insertBySim x acc) acc).Pairwise lexLt ∧
        List.Perm (l.foldl (fun acc x => insertBySim x acc) acc) (acc ++ l) := by
  intro l
  induction l with
  | nil =>
    intro acc hacc _ _
    exact ⟨hacc, by simp⟩
  | cons x xs ih =>
    intro acc hacc hl hcross
    have hl2 := List.pairwise_cons.mp hl
    have hacc2 : (insertBySim x acc).Pairwise lexLt :=
      insertBySim_pairwise x acc hacc
        (fun y hy => hcross y hy x (List.mem_cons_self x xs))
    have hcross2 : ∀ y ∈ insertBySim x acc, ∀ z ∈ xs, y.2 < z.2 := by
      intro y hy z hz
      rcases List.mem_cons.mp ((insertBySim_perm x acc).mem_iff.mp hy) with rfl | hy2
      · exact hl2.1 z hz
      · exact hcross y hy2 z (List.mem_cons_of_mem x hz)
    obtain ⟨hp, hperm⟩ := ih (insertBySim x acc) hacc2 hl2.2 hcross2
    refine ⟨by rw [List.foldl_cons]; exact hp, ?_⟩
    rw [List.foldl_cons]
    refine hperm.trans ?_
    refine (((insertBySim_perm x acc).append_right xs).trans ?_)
    have : (x :: acc) ++ xs = x :: (acc ++ xs) := by simp
    rw [this]
    exact List.perm_middle.symm

theorem sortBySim_spec (l : List (ℚ × Nat))
    (hl : l.Pairwise (fun a b => a.2 < b.2)) :
    (sortBySim l).Pairwise lexLt ∧ List.Perm (sortBySim l) l := by
  have := sortFold_spec l [] (by simp) hl (by simp)
  simpa [sortBySim] using this

theorem indexedSims_pairwise (hist : List Frame) (recent : Frame) :
    (indexedSims hist recent).Pairwise (fun a b => a.2 < b.2) := by
  unfold indexedSims
  refine List.Pairwise.map _ ?_ (List.pairwise_lt_range hist.length)
  intro a b hab
  exact hab

theorem indexedSims_mem_elim (hist : List Frame) (recent : Frame)
    (p : ℚ × Nat) (hp : p ∈ indexedSims hist recent) :
    p.2 < hist.length ∧ p = (simOf hist recent p.2, p.2) := by
  unfold indexedSims at hp
  obtain ⟨i, hi, rfl⟩ := List.mem_map.mp hp
  exact ⟨List.mem_range.mp hi, rfl⟩

theorem indexedSims_mem_intro (hist : List Frame) (recent : Frame)
    (j : Nat) (hj : j < hist.length) :
    (simOf hist recent j, j) ∈ indexedSims hist recent := by
  unfold indexedSims
  exact List.mem_map.mpr ⟨j, List.mem_range.mpr hj, rfl⟩

/-- The selected indices are in range, there are `min 3 length` of them,
and each beats every unselected candidate in the (similarity, index)
lexicographic order: strictly smaller similarity, or equal similarity at a
strictly smaller (older) index. -/
theorem mostSimilarIndices_spec (hist : List Frame) (recent : Frame) :
    (mostSimilarIndices hist recent).length = min 3 hist.length ∧
    (∀ i ∈ mostSimilarIndices hist recent, i < hist.length) ∧
    (∀ i ∈ mostSimilarIndices hist recent, ∀ j, j < hist.length →
      j ∉ mostSimilarIndices hist recent →
      simOf hist recent i < simOf hist recent j ∨
        (simOf hist recent i = simOf hist recent j ∧ i < j)) := by
  obtain ⟨hsorted, hperm⟩ :=
    sortBySim_spec (indexedSims hist recent) (indexedSims_pairwise hist recent)
  have hlen : (sortBySim (indexedSims hist recent)).length = hist.length := by
    rw [hperm.length_eq]
    unfold indexedSims
    simp
  refine ⟨?_, ?_, ?_⟩
  · unfold mostSimilarIndices
    rw [List.length_map, List.length_take, hlen]
  · intro i hi
    obtain ⟨p, hp_take, rfl⟩ := List.mem_map.mp hi
    have hp_sorted : p ∈ sortBySim (indexedSims hist recent) :=
      List.mem_of_mem_take hp_take
    exact (indexedSims_mem_elim hist recent p (hperm.mem_iff.mp hp_sorted)).1
  · intro i hi j hj hjnot
    obtain ⟨p, hp_take, rfl⟩ := List.mem_map.mp hi
    have hp_pair : p = (simOf hist recent p.2, p.2) := by
      have hp_sorted : p ∈ sortBySim (indexedSims hist recent) :=
        List.mem_of_mem_take hp_take
      exact (indexedSims_mem_elim hist recent p (hperm.mem_iff.mp hp_sorted)).2
    have hq_sorted : (simOf hist recent j, j) ∈ sortBySim (indexedSims hist recent) :=
      hperm.mem_iff.mpr (indexedSims_mem_intro hist recent j hj)
    have hq_drop : (simOf hist recent j, j) ∈
        (sortBySim (indexedSims hist recent)).drop 3 := by
      have h := hq_sorted
      rw [← List.take_append_drop 3 (sortBySim (indexedSims hist recent))] at h
      rcases List.mem_append.mp h with htk | hdp
      · exfalso
        apply hjnot
        unfold mostSimilarIndices
        exact List.mem_map.mpr ⟨(simOf hist recent j, j), htk, rfl⟩
      · exact hdp
    have hsorted2 : ((sortBySim (indexedSims hist recent)).take 3 ++
        (sortBySim (indexedSims hist recent)).drop 3).Pairwise lexLt := by
      rw [List.take_append_drop]
      exact hsorted
    have hlex := (List.pairwise_append.mp hsorted2).2.2 p hp_take
      (simOf hist recent j, j) hq_drop
    rcases hlex with hlt | ⟨heq, hidx⟩
    · left
      rw [hp_pair] at hlt
      exact hlt
    · right
      rw [hp_pair] at heq hidx
      exact ⟨heq, hidx⟩

end NP

/-- C2 counterexample: with an empty history (fewer than 2 entries) and a
256-sample current frame, the low-latency variant's predict returns the
whole current frame — output length 256, not the pattern length 128, and
not the trailing 128-sample window. -/
theorem predict_length_counterexample :
    (App.predictNextPattern [] (List.replicate 256 (0:ℚ))).length = 256 ∧
    (App.predictNextPattern [] (List.replicate 256 (0:ℚ))).length ≠ 128 := by
  have h : App.predictNextPattern [] (List.replicate 256 (0:ℚ))
      = List.replicate 256 (0:ℚ) := by
    unfold App.predictNextPattern
    rw [if_pos (by simp)]
  rw [h, List.length_replicate]
  exact ⟨rfl, by norm_num⟩

/-- C2 (amended): with fewer than 2 history entries both variants return
the entire current frame unchanged (identity fallback on the whole frame,
not on its trailing window); with at least 2 entries the full variant
returns a frame of length exactly 512 (its pattern length), while the
low-latency variant returns one of the stored history frames in full. -/
theorem predict_output_shape :
    (∀ (hist : List Frame) (c : Frame), hist.length < 2 →
      App.predictNextPattern hist c = c ∧ NP.predictNextPattern hist c = c) ∧
    (∀ (hist : List Frame) (c : Frame), 2 ≤ hist.length →
      (NP.predictNextPattern hist c).length = 512) ∧
    (∀ (hist : List Frame) (c : Frame), 2 ≤ hist.length →
      App.predictNextPattern hist c ∈ hist) := by
  refine ⟨?_, ?_, ?_⟩
  · intro hist c h
    constructor
    · unfold App.predictNextPattern
      rw [if_pos h]
    · unfold NP.predictNextPattern
      rw [if_pos h]
  · intro hist c h
    unfold NP.predictNextPattern
    rw [if_neg (not_lt.mpr h)]
    unfold NP.synthesize
    rw [List.length_map, List.length_range]
    rfl
  · intro hist c h
    unfold App.predictNextPattern
    rw [if_neg (not_lt.mpr h)]
    have hlt : App.bestMatchIdx hist c < hist.length :=
      (App.bestMatchIdx_spec hist c h).2.1
    rw [List.getD_eq_getElem?_getD, List.getElem?_eq_getElem hlt]
    exact List.getElem_mem hlt

/-- Witness for (the amended) C2 at concrete inputs. -/
theorem predict_output_shape_witness :
    App.predictNextPattern [] [(3:ℚ)] = [(3:ℚ)] ∧
    (NP.predictNextPattern [[(1:ℚ)], [(2:ℚ)]] [(3:ℚ)]).length = 512 ∧
    App.predictNextPattern [[(1:ℚ)], [(2:ℚ)]] [(3:ℚ)] ∈ [[(1:ℚ)], [(2:ℚ)]] :=
  ⟨(predict_output_shape.1 [] [(3:ℚ)] (by simp)).1,
   predict_output_shape.2.1 [[(1:ℚ)], [(2:ℚ)]] [(3:ℚ)] (by simp),
   predict_output_shape.2.2 [[(1:ℚ)], [(2:ℚ)]] [(3:ℚ)] (by simp)⟩

/-- C3 counterexample: a history of two distinct frames with equal
similarity scores against the current frame; the low-latency variant keeps
the older candidate (index 0) rather than choosing the more recent one
(index 1). -/
theorem tie_break_counterexample :
    App.similarity ((List.replicate 256 (0:ℚ)).set 1 5)
        (App.recentPattern (List.replicate 256 (0:ℚ))) =
      App.similarity (List.replicate 256 (0:ℚ))
        (App.recentPattern (List.replicate 256 (0:ℚ))) ∧
    (List.replicate 256 (0:ℚ)).set 1 5 ≠ List.replicate 256 (0:ℚ) ∧
    App.bestMatchIdx
      [List.replicate 256 (0:ℚ), (List.replicate 256 (0:ℚ)).set 1 5]
      (List.replicate 256 (0:ℚ)) = 0 := by
  have hcongr : ∀ k, k < 32 →
      ((List.replicate 256 (0:ℚ)).set 1 5).getD (4 * k) 0 =
        (List.replicate 256 (0:ℚ)).getD (4 * k) 0 := by
    intro k hk
    rw [List.getD_eq_getElem?_getD, List.getD_eq_getElem?_getD,
      List.getElem?_set_ne (by omega)]
  have hsim := App.similarity_congr _ _
    (App.recentPattern (List.replicate 256 (0:ℚ))) hcongr
  refine ⟨hsim, ?_, ?_⟩
  · intro hcon
    have h5 : ((List.replicate 256 (0:ℚ)).set 1 5).getD 1 0 = 5 := by
      rw [List.getD_eq_getElem?_getD,
        List.getElem?_set_self (by rw [List.length_replicate]; norm_num)]
      rfl
    have h0 : (List.replicate 256 (0:ℚ)).getD 1 0 = 0 := by
      rw [List.getD_eq_getElem?_getD, List.getElem?_replicate_of_lt (by norm_num)]
      rfl
    rw [hcon, h0] at h5
    norm_num at h5
  · have hspec := App.bestMatchIdx_spec
      [List.replicate 256 (0:ℚ), (List.replicate 256 (0:ℚ)).set 1 5]
      (List.replicate 256 (0:ℚ)) (le_refl 2)
    obtain ⟨_, hlt2, _, hfirst⟩ := hspec
    have hlen : ([List.replicate 256 (0:ℚ),
        (List.replicate 256 (0:ℚ)).set 1 5] : List Frame).length = 2 := rfl
    rw [hlen] at hlt2
    by_contra hne
    have hb1 : App.bestMatchIdx
        [List.replicate 256 (0:ℚ), (List.replicate 256 (0:ℚ)).set 1 5]
        (List.replicate 256 (0:ℚ)) = 1 := by omega
    have hcontra := hfirst 0 (Nat.zero_le _) (by rw [hb1]; norm_num)
    rw [hb1] at hcontra
    have e1 : App.simOf
        [List.replicate 256 (0:ℚ), (List.replicate 256 (0:ℚ)).set 1 5]
        (App.recentPattern (List.replicate 256 (0:ℚ))) 1 =
        App.similarity ((List.replicate 256 (0:ℚ)).set 1 5)
          (App.recentPattern (List.replicate 256 (0:ℚ))) := rfl
    have e0 : App.simOf
        [List.replicate 256 (0:ℚ), (List.replicate 256 (0:ℚ)).set 1 5]
        (App.recentPattern (List.replicate 256 (0:ℚ))) 0 =
        App.similarity (List.replicate 256 (0:ℚ))
          (App.recentPattern (List.replicate 256 (0:ℚ))) := rfl
    rw [e1, e0, hsim] at hcontra
    exact absurd hcontra (lt_irrefl _)

/-- C3 (corrected): both variants select the candidates with the smallest
similarity scores (K = 1 within the 8-entry window for the low-latency
variant, K = 3 over the whole history for the full variant), but on equal
similarity scores the candidate at the OLDER (lower) history index is
chosen, not the more recent one: the low-latency strict-improvement scan
keeps the first minimizer, and the full variant's stable sort keeps the
original index-ascending order among equal scores. -/
theorem selection_smallest_ties_older :
    (∀ (hist : List Frame) (c : Frame), 2 ≤ hist.length →
      (App.recentHistoryStart hist ≤ App.bestMatchIdx hist c ∧
        App.bestMatchIdx hist c < hist.length) ∧
      (∀ j, App.recentHistoryStart hist ≤ j → j < hist.length →
        App.simOf hist (App.recentPattern c) (App.bestMatchIdx hist c) ≤
          App.simOf hist (App.recentPattern c) j) ∧
      (∀ j, App.recentHistoryStart hist ≤ j → j < hist.length →
        App.simOf hist (App.recentPattern c) j =
          App.simOf hist (App.recentPattern c) (App.bestMatchIdx hist c) →
        App.bestMatchIdx hist c ≤ j)) ∧
    (∀ (hist : List Frame) (c : Frame), 2 ≤ hist.length →
      (NP.mostSimilarIndices hist (NP.recentPattern c)).length =
        min 3 hist.length ∧
      (∀ i ∈ NP.mostSimilarIndices hist (NP.recentPattern c), i < hist.length) ∧
      (∀ i ∈ NP.mostSimilarIndices hist (NP.recentPattern c),
        ∀ j, j < hist.length → j ∉ NP.mostSimilarIndices hist (NP.recentPattern c) →
        NP.simOf hist (NP.recentPattern c) i < NP.simOf hist (NP.recentPattern c) j ∨
          (NP.simOf hist (NP.recentPattern c) i = NP.simOf hist (NP.recentPattern c) j ∧
            i < j))) := by
  constructor
  · intro hist c h2
    obtain ⟨hmem1, hmem2, hmin, hfirst⟩ := App.bestMatchIdx_spec hist c h2
    refine ⟨⟨hmem1, hmem2⟩, hmin, ?_⟩
    intro j hj1 hj2 heq
    by_contra hlt
    have := hfirst j hj1 (not_le.mp hlt)
    rw [heq] at this
    exact absurd this (lt_irrefl _)
  · intro hist c _
    exact NP.mostSimilarIndices_spec hist (NP.recentPattern c)

/-- Witness for (the amended) C3 at a concrete input. -/
theorem selection_smallest_ties_older_witness :
    App.bestMatchIdx [[(1:ℚ)], [(2:ℚ)]] [(3:ℚ)] < 2 ∧
    (NP.mostSimilarIndices [[(1:ℚ)], [(2:ℚ)]]
      (NP.recentPattern [(3:ℚ)])).length = min 3 2 :=
  ⟨((selection_smallest_ties_older.1 [[(1:ℚ)], [(2:ℚ)]] [(3:ℚ)] (by simp)).1).2,
   (selection_smallest_ties_older.2 [[(1:ℚ)], [(2:ℚ)]] [(3:ℚ)] (by simp)).1⟩

/-- C8: prediction is deterministic — on identical (history, currentFrame)
inputs both variants' predict functions yield identical outputs; the
embedded functions consume nothing besides these two inputs and the fixed
configuration constants. -/
theorem predict_deterministic :
    ∀ (h1 h2 : List Frame) (c1 c2 : Frame), h1 = h2 → c1 = c2 →
      App.predictNextPattern h1 c1 = App.predictNextPattern h2 c2 ∧
      NP.predictNextPattern h1 c1 = NP.predictNextPattern h2 c2 := by
  intro h1 h2 c1 c2 hh hc
  subst hh
  subst hc
  exact ⟨rfl, rfl⟩

/-- Witness for C8 at a concrete input. -/
theorem predict_deterministic_witness :
    App.predictNextPattern [[(1:ℚ)]] [(2:ℚ)] = App.predictNextPattern [[(1:ℚ)]] [(2:ℚ)] ∧
    NP.predictNextPattern [[(1:ℚ)]] [(2:ℚ)] = NP.predictNextPattern [[(1:ℚ)]] [(2:ℚ)] :=
  predict_deterministic [[(1:ℚ)]] [[(1:ℚ)]] [(2:ℚ)] [(2:ℚ)] rfl rfl

/-- C9 counterexample: the configured prediction weight vector
[0.5, 0.3, 0.2] sums to exactly 1, not to strictly less than 1. -/
theorem prediction_weights_sum_counterexample :
    ¬ (NP.predictionWeights.sum < 1) := by
  norm_num [NP.predictionWeights]

/-- C9 (amended): the prediction weight vector [0.5, 0.3, 0.2] sums to
exactly 1, so a prediction synthesized from three identical candidate
frames reproduces that frame sample-for-sample — equal amplitude, not
strictly smaller. -/
theorem prediction_weights_sum_one :
    NP.predictionWeights.sum = 1 ∧
    (∀ (f : Frame) (i : Nat), i < 512 →
      (NP.synthesize [f, f, f] [0, 1, 2]).getD i 0 = f.getD i 0) := by
  constructor
  · norm_num [NP.predictionWeights]
  · intro f i hi
    unfold NP.synthesize
    rw [List.getD_eq_getElem?_getD, List.getElem?_map,
      List.getElem?_range (by exact hi)]
    simp only [Option.map_some', Option.getD_some]
    show (List.enum [0, 1, 2]).foldl _ 0 = f.getD i 0
    rw [show List.enum [0, 1, 2] = [(0, 0), (1, 1), (2, 2)] from rfl]
    simp only [List.foldl_cons, List.foldl_nil]
    show 0 + f.getD i 0 * (1/2 : ℚ) + f.getD i 0 * (3/10) + f.getD i 0 * (1/5)
        = f.getD i 0
    ring

/-- Witness for (the amended) C9 at a concrete input. -/
theorem prediction_weights_sum_one_witness :
    (NP.synthesize [[(4:ℚ)], [(4:ℚ)], [(4:ℚ)]] [0, 1, 2]).getD 0 0
      = ([(4:ℚ)]).getD 0 0 :=
  prediction_weights_sum_one.2 [(4:ℚ)] 0 (by norm_num)

namespace App

/-- The per-sample combine of the low-latency variant:
`outputData[i] = (-inputData[i] * 0.7) + (prediction[i] || 0) * 0.3`, one
output sample for each sample of the block (`outputData.length` equals the
input block length). -/
def combineFrame (input prediction : Frame) : Frame :=
  (List.range input.length).map fun i =>
    (-(input.getD i 0)) * (0.7 : ℚ) + (prediction.getD i 0) * (0.3 : ℚ)

end App

namespace NP

/-- The per-sample combine of the full variant:
`outputData[i] = prediction[i] || 0` (pure prediction playback). -/
def combineFrame (input prediction : Frame) : Frame :=
  (List.range input.length).map fun i => prediction.getD i 0

end NP

namespace BT

/-- The per-sample combine of the Bluetooth variant:
`output[i] = -delayedSample` — only the inverted sample read back from the
delay buffer. -/
def combineFrame (delayed : Frame) : Frame := delayed.map fun s => -s

end BT

/-- C5: each variant's per-frame combine step implements its stated mixing
law at every in-block sample index: the low-latency variant emits
`0.7*(-input[i]) + 0.3*prediction[i]` (a missing prediction sample
contributing 0), the full variant emits the pure prediction (0 where
missing), and the Bluetooth variant emits only the inverted delayed
sample. -/
theorem combine_mix_laws :
    (∀ (input prediction : Frame) (i : Nat), i < input.length →
      (App.combineFrame input prediction).getD i 0 =
        (0.7 : ℚ) * (-(input.getD i 0)) + (0.3 : ℚ) * (prediction.getD i 0)) ∧
    (∀ (input prediction : Frame) (i : Nat), i < input.length →
      (NP.combineFrame input prediction).getD i 0 = prediction.getD i 0) ∧
    (∀ (delayed : Frame) (i : Nat), i < delayed.length →
      (BT.combineFrame delayed).getD i 0 = -(delayed.getD i 0)) := by
  refine ⟨?_, ?_, ?_⟩
  · intro input prediction i hi
    unfold App.combineFrame
    rw [List.getD_eq_getElem?_getD, List.getElem?_map, List.getElem?_range hi]
    simp only [Option.map_some', Option.getD_some]
    ring
  · intro input prediction i hi
    unfold NP.combineFrame
    rw [List.getD_eq_getElem?_getD, List.getElem?_map, List.getElem?_range hi]
    rfl
  · intro delayed i hi
    unfold BT.combineFrame
    rw [List.getD_eq_getElem?_getD, List.getElem?_map,
      List.getElem?_eq_getElem hi]
    simp only [Option.map_some', Option.getD_some]
    rw [List.getD_eq_getElem?_getD, List.getElem?_eq_getElem hi]
    rfl

/-- Witness for C5 at concrete inputs. -/
theorem combine_mix_laws_witness :
    (App.combineFrame [(1:ℚ)] [(2:ℚ)]).getD 0 0 =
      (0.7 : ℚ) * (-(([(1:ℚ)]).getD 0 0)) + (0.3 : ℚ) * (([(2:ℚ)]).getD 0 0) ∧
    (NP.combineFrame [(1:ℚ)] [(2:ℚ)]).getD 0 0 = ([(2:ℚ)]).getD 0 0 ∧
    (BT.combineFrame [(5:ℚ)]).getD 0 0 = -(([(5:ℚ)]).getD 0 0) :=
  ⟨combine_mix_laws.1 [(1:ℚ)] [(2:ℚ)] 0 (by norm_num),
   combine_mix_laws.2.1 [(1:ℚ)] [(2:ℚ)] 0 (by norm_num),
   combine_mix_laws.2.2 [(5:ℚ)] 0 (by norm_num)⟩

namespace Car

/-- State of the adaptive (car) variant's processor: the three 16-sample
band ring buffers, the shared decimation write index, and the current
gains of the three peaking filters. -/
structure State where
  engineBuffer : Frame
  tireBuffer : Frame
  windBuffer : Frame
  bufferIndex : Nat
  engineGain : ℚ
  tireGain : ℚ
  windGain : ℚ
deriving DecidableEq

/-- Initial state: `new Float32Array(16)` zero-filled ring buffers,
`bufferIndex = 0`, and the statically configured filter gains −15, −12,
−10 (`createCarNoiseFilter(ctx, 40, 2.0, -15)` etc.). -/
def initState : State :=
  { engineBuffer := List.replicate 16 0
    tireBuffer := List.replicate 16 0
    windBuffer := List.replicate 16 0
    bufferIndex := 0
    engineGain := -15
    tireGain := -12
    windGain := -10 }

/-- One iteration of the 256-sample loop: every 16th sample
(`i % 16 === 0`) is written into all three ring buffers at the shared
`bufferIndex`, which then advances modulo 16. -/
def storeStep (input : Frame) (s : State) (i : Nat) : State :=
  if i % 16 = 0 then
    { s with
        engineBuffer := s.engineBuffer.set s.bufferIndex (input.getD i 0)
        tireBuffer := s.tireBuffer.set s.bufferIndex (input.getD i 0)
        windBuffer := s.windBuffer.set s.bufferIndex (input.getD i 0)
        bufferIndex := (s.bufferIndex + 1) % 16 }
  else s

/-- Band energy: `for (i = 0; i < 16; i++) energy += b[i]*b[i]`. -/
def energy (b : Frame) : ℚ :=
  (List.range 16).foldl (fun e i => e + b.getD i 0 * b.getD i 0) 0

/-- The ring-buffer state after the 256-sample store loop of one frame. -/
def updatedState (s : State) (input : Frame) : State :=
  (List.range 256).foldl (storeStep input) s

/-- The two-level gain factor: `energy > 0.1 ? 1.2 : 0.8`. -/
def gainFactor (e : ℚ) : ℚ := if e > (0.1 : ℚ) then (1.2 : ℚ) else 0.8

/-- One `onaudioprocess` callback of the adaptive variant: the 256-sample
loop stores decimated samples into the ring buffers and inverts each
sample into the output, then the three band energies are recomputed and
the three filter gains overwritten with
`baseGain * (energy > 0.1 ? 1.2 : 0.8)`. -/
def processFrame (s : State) (input : Frame) : State × Frame :=
  (⟨(updatedState s input).engineBuffer,
    (updatedState s input).tireBuffer,
    (updatedState s input).windBuffer,
    (updatedState s input).bufferIndex,
    -15 * gainFactor (energy (updatedState s input).engineBuffer),
    -12 * gainFactor (energy (updatedState s input).tireBuffer),
    -10 * gainFactor (energy (updatedState s input).windBuffer)⟩,
   (List.range 256).map fun i => -(input.getD i 0))

/-- Running a sequence of captured frames through the callback. -/
def runFrames (s : State) (frames : List Frame) : State :=
  frames.foldl (fun s f => (processFrame s f).1) s

theorem storeStep_gains (input : Frame) (i : Nat) (s : State) (g1 g2 g3 : ℚ) :
    storeStep input
      { s with engineGain := g1, tireGain := g2, windGain := g3 } i =
    { storeStep input s i with engineGain := g1, tireGain := g2, windGain := g3 } := by
  unfold storeStep
  split <;> rfl

theorem foldl_storeStep_gains (input : Frame) (l : List Nat) :
    ∀ (s : State) (g1 g2 g3 : ℚ),
      l.foldl (storeStep input)
        { s with engineGain := g1, tireGain := g2, windGain := g3 } =
      { l.foldl (storeStep input) s with
          engineGain := g1, tireGain := g2, windGain := g3 } := by
  induction l with
  | nil => intro s g1 g2 g3; rfl
  | cons i l ih =>
    intro s g1 g2 g3
    rw [List.foldl_cons, List.foldl_cons, storeStep_gains]
    exact ih (storeStep input s i) g1 g2 g3

theorem updatedState_gains (input : Frame) (s : State) (g1 g2 g3 : ℚ) :
    updatedState { s with engineGain := g1, tireGain := g2, windGain := g3 } input =
    { updatedState s input with engineGain := g1, tireGain := g2, windGain := g3 } :=
  foldl_storeStep_gains input (List.range 256) s g1 g2 g3

/-- A band energy is zero whenever every probed slot of the buffer reads
zero (in particular for empty and all-zero buffers). -/
theorem energy_zero (b : Frame) (hb : ∀ i, b.getD i 0 = 0) : energy b = 0 := by
  unfold energy
  have hgen : ∀ (l : List Nat) (e : ℚ),
      l.foldl (fun e i => e + b.getD i 0 * b.getD i 0) e = e := by
    intro l
    induction l with
    | nil => intro e; rfl
    | cons x xs ih =>
      intro e
      rw [List.foldl_cons, hb x]
      rw [show e + (0:ℚ) * 0 = e by ring]
      exact ih e
  exact hgen _ 0

theorem foldl_storeStep_nil_buffers (input : Frame) (l : List Nat) :
    ∀ s : State, s.engineBuffer = [] → s.tireBuffer = [] → s.windBuffer = [] →
      (l.foldl (storeStep input) s).engineBuffer = [] ∧
      (l.foldl (storeStep input) s).tireBuffer = [] ∧
      (l.foldl (storeStep input) s).windBuffer = [] := by
  induction l with
  | nil => intro s h1 h2 h3; exact ⟨h1, h2, h3⟩
  | cons i l ih =>
    intro s h1 h2 h3
    rw [List.foldl_cons]
    refine ih (storeStep input s i) ?_ ?_ ?_ <;>
      · unfold storeStep
        split
        · simp only [h1, h2, h3]
          rfl
        · simpa using by assumption

theorem updatedState_nil_buffers (input : Frame) (s : State)
    (h1 : s.engineBuffer = []) (h2 : s.tireBuffer = []) (h3 : s.windBuffer = []) :
    (updatedState s input).engineBuffer = [] ∧
    (updatedState s input).tireBuffer = [] ∧
    (updatedState s input).windBuffer = [] :=
  foldl_storeStep_nil_buffers input (List.range 256) s h1 h2 h3

theorem storeStep_buffers_eq (input : Frame) (i : Nat) (s : State)
    (h12 : s.engineBuffer = s.tireBuffer) (h32 : s.windBuffer = s.tireBuffer) :
    (storeStep input s i).engineBuffer = (storeStep input s i).tireBuffer ∧
    (storeStep input s i).windBuffer = (storeStep input s i).tireBuffer := by
  unfold storeStep
  split
  · simp [h12, h32]
  · exact ⟨h12, h32⟩

theorem foldl_storeStep_buffers_eq (input : Frame) (l : List Nat) :
    ∀ s : State, s.engineBuffer = s.tireBuffer → s.windBuffer = s.tireBuffer →
      (l.foldl (storeStep input) s).engineBuffer =
        (l.foldl (storeStep input) s).tireBuffer ∧
      (l.foldl (storeStep input) s).windBuffer =
        (l.foldl (storeStep input) s).tireBuffer := by
  induction l with
  | nil => intro s h12 h32; exact ⟨h12, h32⟩
  | cons i l ih =>
    intro s h12 h32
    rw [List.foldl_cons]
    obtain ⟨k12, k32⟩ := storeStep_buffers_eq input i s h12 h32
    exact ih (storeStep input s i) k12 k32

theorem updatedState_buffers_eq (input : Frame) (s : State)
    (h12 : s.engineBuffer = s.tireBuffer) (h32 : s.windBuffer = s.tireBuffer) :
    (updatedState s input).engineBuffer = (updatedState s input).tireBuffer ∧
    (updatedState s input).windBuffer = (updatedState s input).tireBuffer :=
  foldl_storeStep_buffers_eq input (List.range 256) s h12 h32

end Car

attribute [irreducible] Car.updatedState

namespace Car

theorem processFrame_engineBuffer (s : State) (input : Frame) :
    (processFrame s input).1.engineBuffer = (updatedState s input).engineBuffer := rfl

theorem processFrame_tireBuffer (s : State) (input : Frame) :
    (processFrame s input).1.tireBuffer = (updatedState s input).tireBuffer := rfl

theorem processFrame_windBuffer (s : State) (input : Frame) :
    (processFrame s input).1.windBuffer = (updatedState s input).windBuffer := rfl

theorem processFrame_engineGain (s : State) (input : Frame) :
    (processFrame s input).1.engineGain =
      -15 * gainFactor (energy (updatedState s input).engineBuffer) := rfl

theorem processFrame_tireGain (s : State) (input : Frame) :
    (processFrame s input).1.tireGain =
      -12 * gainFactor (energy (updatedState s input).tireBuffer) := rfl

theorem processFrame_windGain (s : State) (input : Frame) :
    (processFrame s input).1.windGain =
      -10 * gainFactor (energy (updatedState s input).windBuffer) := rfl

end Car

/-- C6: in the adaptive-gain variant, after every processed frame each
monitored band's filter gain equals its base gain (−15, −12, −10)
multiplied by 1.2 when that band's ring-buffer energy exceeds 0.1 and by
0.8 otherwise; the gains are recomputed from the base constants every
frame, independent of the gains held before the frame (no hysteresis). -/
theorem adaptive_gain_two_level :
    ∀ (s : Car.State) (input : Frame),
      (Car.energy ((Car.processFrame s input).1.engineBuffer) > (0.1 : ℚ) →
        (Car.processFrame s input).1.engineGain = -15 * (1.2 : ℚ)) ∧
      (¬ Car.energy ((Car.processFrame s input).1.engineBuffer) > (0.1 : ℚ) →
        (Car.processFrame s input).1.engineGain = -15 * (0.8 : ℚ)) ∧
      (Car.energy ((Car.processFrame s input).1.tireBuffer) > (0.1 : ℚ) →
        (Car.processFrame s input).1.tireGain = -12 * (1.2 : ℚ)) ∧
      (¬ Car.energy ((Car.processFrame s input).1.tireBuffer) > (0.1 : ℚ) →
        (Car.processFrame s input).1.tireGain = -12 * (0.8 : ℚ)) ∧
      (Car.energy ((Car.processFrame s input).1.windBuffer) > (0.1 : ℚ) →
        (Car.processFrame s input).1.windGain = -10 * (1.2 : ℚ)) ∧
      (¬ Car.energy ((Car.processFrame s input).1.windBuffer) > (0.1 : ℚ) →
        (Car.processFrame s input).1.windGain = -10 * (0.8 : ℚ)) ∧
      (∀ g1 g2 g3 : ℚ,
        (Car.processFrame
          { s with engineGain := g1, tireGain := g2, windGain := g3 } input).1 =
        (Car.processFrame s input).1) := by
  intro s input
  refine ⟨?_, ?_, ?_, ?_, ?_, ?_, ?_⟩
  · intro h
    have h' : Car.energy (Car.updatedState s input).engineBuffer > (0.1 : ℚ) := h
    show -15 * Car.gainFactor (Car.energy (Car.updatedState s input).engineBuffer)
        = -15 * (1.2 : ℚ)
    rw [Car.gainFactor, if_pos h']
  · intro h
    have h' : ¬ Car.energy (Car.updatedState s input).engineBuffer > (0.1 : ℚ) := h
    show -15 * Car.gainFactor (Car.energy (Car.updatedState s input).engineBuffer)
        = -15 * (0.8 : ℚ)
    rw [Car.gainFactor, if_neg h']
  · intro h
    have h' : Car.energy (Car.updatedState s input).tireBuffer > (0.1 : ℚ) := h
    show -12 * Car.gainFactor (Car.energy (Car.updatedState s input).tireBuffer)
        = -12 * (1.2 : ℚ)
    rw [Car.gainFactor, if_pos h']
  · intro h
    have h' : ¬ Car.energy (Car.updatedState s input).tireBuffer > (0.1 : ℚ) := h
    show -12 * Car.gainFactor (Car.energy (Car.updatedState s input).tireBuffer)
        = -12 * (0.8 : ℚ)
    rw [Car.gainFactor, if_neg h']
  · intro h
    have h' : Car.energy (Car.updatedState s input).windBuffer > (0.1 : ℚ) := h
    show -10 * Car.gainFactor (Car.energy (Car.updatedState s input).windBuffer)
        = -10 * (1.2 : ℚ)
    rw [Car.gainFactor, if_pos h']
  · intro h
    have h' : ¬ Car.energy (Car.updatedState s input).windBuffer > (0.1 : ℚ) := h
    show -10 * Car.gainFactor (Car.energy (Car.updatedState s input).windBuffer)
        = -10 * (0.8 : ℚ)
    rw [Car.gainFactor, if_neg h']
  · intro g1 g2 g3
    simp only [Car.processFrame]
    rw [Car.updatedState_gains]

/-- Witness for C6 at a concrete input: a state with empty band buffers
processing an empty frame — every band energy is 0, below the 0.1
threshold, so every gain attenuates to base × 0.8. -/
theorem adaptive_gain_two_level_witness :
    (¬ Car.energy ((Car.processFrame ⟨[], [], [], 0, 0, 0, 0⟩ []).1.engineBuffer)
        > (0.1 : ℚ)) ∧
    (Car.processFrame (⟨[], [], [], 0, 0, 0, 0⟩ : Car.State) []).1.engineGain
        = -15 * (0.8 : ℚ) := by
  have hbufs := Car.updatedState_nil_buffers []
    ⟨[], [], [], 0, 0, 0, 0⟩ rfl rfl rfl
  have hbuf : (Car.processFrame (⟨[], [], [], 0, 0, 0, 0⟩ : Car.State) []).1.engineBuffer
      = [] := (Car.processFrame_engineBuffer _ _).trans hbufs.1
  have hngt : ¬ Car.energy ((Car.processFrame (⟨[], [], [], 0, 0, 0, 0⟩ : Car.State)
      []).1.engineBuffer) > (0.1 : ℚ) := by
    rw [hbuf, Car.energy_zero [] (fun i => rfl)]
    norm_num
  exact ⟨hngt, (adaptive_gain_two_level ⟨[], [], [], 0, 0, 0, 0⟩ []).2.1 hngt⟩

namespace Car

theorem runFrames_buffers_eq :
    ∀ (frames : List Frame) (s : State),
      s.engineBuffer = s.tireBuffer → s.windBuffer = s.tireBuffer →
      (runFrames s frames).engineBuffer = (runFrames s frames).tireBuffer ∧
      (runFrames s frames).windBuffer = (runFrames s frames).tireBuffer := by
  intro frames
  induction frames with
  | nil => intro s h12 h32; exact ⟨h12, h32⟩
  | cons f fs ih =>
    intro s h12 h32
    show (runFrames (processFrame s f).1 fs).engineBuffer = _ ∧ _
    obtain ⟨k12, k32⟩ := updatedState_buffers_eq f s h12 h32
    refine ih (processFrame s f).1 ?_ ?_
    · rw [processFrame_engineBuffer, processFrame_tireBuffer]
      exact k12
    · rw [processFrame_windBuffer, processFrame_tireBuffer]
      exact k32

theorem runFrames_append_singleton (s : State) (fs : List Frame) (f : Frame) :
    runFrames s (fs ++ [f]) = (processFrame (runFrames s fs) f).1 := by
  unfold runFrames
  rw [List.foldl_append]
  rfl

end Car

/-- C10: in the adaptive-gain variant the engine, tire and wind ring
buffers receive exactly the same decimated samples at the same positions,
so after every processed frame (any prior frame sequence followed by one
more frame, starting from the zero-initialised state) the three buffers
are identical, the three band energies are equal, and the three filters
carry a single shared boost/attenuate factor — they always switch
together. -/
theorem bands_move_together :
    ∀ (fs : List Frame) (f : Frame),
      ((Car.runFrames Car.initState (fs ++ [f])).engineBuffer =
          (Car.runFrames Car.initState (fs ++ [f])).tireBuffer ∧
        (Car.runFrames Car.initState (fs ++ [f])).windBuffer =
          (Car.runFrames Car.initState (fs ++ [f])).tireBuffer) ∧
      (Car.energy (Car.runFrames Car.initState (fs ++ [f])).engineBuffer =
          Car.energy (Car.runFrames Car.initState (fs ++ [f])).tireBuffer ∧
        Car.energy (Car.runFrames Car.initState (fs ++ [f])).windBuffer =
          Car.energy (Car.runFrames Car.initState (fs ++ [f])).tireBuffer) ∧
      (∃ fac : ℚ, (fac = (1.2 : ℚ) ∨ fac = (0.8 : ℚ)) ∧
        (Car.runFrames Car.initState (fs ++ [f])).engineGain = -15 * fac ∧
        (Car.runFrames Car.initState (fs ++ [f])).tireGain = -12 * fac ∧
        (Car.runFrames Car.initState (fs ++ [f])).windGain = -10 * fac) := by
  intro fs f
  have hrw := Car.runFrames_append_singleton Car.initState fs f
  have hinv := Car.runFrames_buffers_eq fs Car.initState rfl rfl
  obtain ⟨hu12, hu32⟩ :=
    Car.updatedState_buffers_eq f (Car.runFrames Car.initState fs) hinv.1 hinv.2
  rw [hrw]
  refine ⟨⟨?_, ?_⟩, ⟨?_, ?_⟩, ?_⟩
  · rw [Car.processFrame_engineBuffer, Car.processFrame_tireBuffer]
    exact hu12
  · rw [Car.processFrame_windBuffer, Car.processFrame_tireBuffer]
    exact hu32
  · rw [Car.processFrame_engineBuffer, Car.processFrame_tireBuffer, hu12]
  · rw [Car.processFrame_windBuffer, Car.processFrame_tireBuffer, hu32]
  · refine ⟨Car.gainFactor (Car.energy
      ((Car.updatedState (Car.runFrames Car.initState fs) f).tireBuffer)),
      ?_, ?_, ?_, ?_⟩
    · unfold Car.gainFactor
      split
      · exact Or.inl rfl
      · exact Or.inr rfl
    · rw [Car.processFrame_engineGain, hu12]
    · rw [Car.processFrame_tireGain]
    · rw [Car.processFrame_windGain, hu32]

namespace BT

/-- `Math.ceil(context.sampleRate * 0.2)` at the configured 48000 Hz
sample rate: the 200 ms delay buffer holds 9600 samples. -/
def delayBufferSize : Nat := 9600

/-- Delay-line state of the Bluetooth variant's processor: the circular
buffer and the two pointers. -/
structure DelayState where
  buffer : Frame
  writePtr : Nat
  readPtr : Nat

/-- Initial state: `new Float32Array(delayBufferSize)` (silence) with
`delayWritePtr = 0` and `delayReadPtr = 0` — both pointers start equal;
no offset between them is ever configured. -/
def initDelay : DelayState :=
  { buffer := List.replicate delayBufferSize 0, writePtr := 0, readPtr := 0 }

/-- `delayBuffer[delayWritePtr] = x;
delayWritePtr = (delayWritePtr + 1) % delayBufferSize`. -/
def delayWrite (s : DelayState) (x : ℚ) : DelayState :=
  { s with
      buffer := s.buffer.set s.writePtr x
      writePtr := (s.writePtr + 1) % delayBufferSize }

/-- `delayedSample = delayBuffer[delayReadPtr];
delayReadPtr = (delayReadPtr + 1) % delayBufferSize`. -/
def delayRead (s : DelayState) : ℚ × DelayState :=
  (s.buffer.getD s.readPtr 0,
   { s with readPtr := (s.readPtr + 1) % delayBufferSize })

/-- The store loop of one frame: write every input sample in order. -/
def writeAll (s : DelayState) (xs : List ℚ) : DelayState :=
  xs.foldl delayWrite s

/-- The output loop of one frame: read `n` samples in order. -/
def readAll (s : DelayState) : Nat → List ℚ × DelayState
  | 0 => ([], s)
  | n + 1 =>
      ((delayRead s).1 :: (readAll (delayRead s).2 n).1,
       (readAll (delayRead s).2 n).2)

theorem delayBufferSize_pos : 0 < delayBufferSize := by
  unfold delayBufferSize
  norm_num

theorem writeAll_getD :
    ∀ (xs : List ℚ) (s : DelayState),
      s.buffer.length = delayBufferSize →
      s.writePtr + xs.length ≤ delayBufferSize →
      (writeAll s xs).buffer.length = delayBufferSize ∧
      (writeAll s xs).readPtr = s.readPtr ∧
      (∀ j, (writeAll s xs).buffer.getD j 0 =
        if s.writePtr ≤ j ∧ j < s.writePtr + xs.length
        then xs.getD (j - s.writePtr) 0
        else s.buffer.getD j 0) := by
  intro xs
  induction xs with
  | nil =>
    intro s hlen hle
    refine ⟨hlen, rfl, ?_⟩
    intro j
    rw [if_neg (by simp only [List.length_nil]; omega)]
    rfl
  | cons x xs ih =>
    intro s hlen hle
    have hstep : writeAll s (x :: xs) = writeAll (delayWrite s x) xs := rfl
    have hwp : s.writePtr < delayBufferSize := by
      simp only [List.length_cons] at hle
      omega
    have hbuf' : (delayWrite s x).buffer.length = delayBufferSize := by
      show (s.buffer.set s.writePtr x).length = delayBufferSize
      rw [List.length_set]
      exact hlen
    by_cases hxs : xs = []
    · subst hxs
      have hle' : (delayWrite s x).writePtr + ([] : List ℚ).length ≤ delayBufferSize := by
        show (s.writePtr + 1) % delayBufferSize + 0 ≤ delayBufferSize
        rw [Nat.add_zero]
        exact le_of_lt (Nat.mod_lt _ delayBufferSize_pos)
      obtain ⟨h1, h2, h3⟩ := ih (delayWrite s x) hbuf' hle'
      rw [hstep]
      refine ⟨h1, h2, ?_⟩
      intro j
      rw [h3 j, if_neg (by simp only [List.length_nil]; omega)]
      by_cases hj : j = s.writePtr
      · subst hj
        rw [if_pos (by simp only [List.length_cons, List.length_nil]; omega)]
        rw [Nat.sub_self, List.getD_cons_zero]
        show (s.buffer.set s.writePtr x).getD s.writePtr 0 = x
        rw [List.getD_eq_getElem?_getD, List.getElem?_set_self (hlen ▸ hwp)]
        rfl
      · rw [if_neg (by simp only [List.length_cons, List.length_nil]; omega)]
        show (s.buffer.set s.writePtr x).getD j 0 = s.buffer.getD j 0
        rw [List.getD_eq_getElem?_getD, List.getElem?_set_ne (fun h => hj h.symm),
          ← List.getD_eq_getElem?_getD]
    · have hwp1 : (delayWrite s x).writePtr = s.writePtr + 1 := by
        show (s.writePtr + 1) % delayBufferSize = s.writePtr + 1
        apply Nat.mod_eq_of_lt
        have hpos : 1 ≤ xs.length := List.length_pos.mpr hxs
        simp only [List.length_cons] at hle
        omega
      have hle' : (delayWrite s x).writePtr + xs.length ≤ delayBufferSize := by
        rw [hwp1]
        simp only [List.length_cons] at hle
        omega
      obtain ⟨h1, h2, h3⟩ := ih (delayWrite s x) hbuf' hle'
      rw [hstep]
      refine ⟨h1, h2, ?_⟩
      intro j
      rw [h3 j, hwp1]
      by_cases hcase : s.writePtr + 1 ≤ j ∧ j < s.writePtr + 1 + xs.length
      · rw [if_pos hcase, if_pos (by simp only [List.length_cons]; omega)]
        have hj : j - s.writePtr = (j - (s.writePtr + 1)) + 1 := by omega
        rw [hj, List.getD_cons_succ]
      · rw [if_neg hcase]
        by_cases hj : j = s.writePtr
        · subst hj
          rw [if_pos (by simp only [List.length_cons]; omega)]
          rw [Nat.sub_self, List.getD_cons_zero]
          show (s.buffer.set s.writePtr x).getD s.writePtr 0 = x
          rw [List.getD_eq_getElem?_getD, List.getElem?_set_self (hlen ▸ hwp)]
          rfl
        · rw [if_neg (by simp only [List.length_cons]; omega)]
          show (s.buffer.set s.writePtr x).getD j 0 = s.buffer.getD j 0
          rw [List.getD_eq_getElem?_getD, List.getElem?_set_ne (fun h => hj h.symm),
            ← List.getD_eq_getElem?_getD]

theorem readAll_spec :
    ∀ (n : Nat) (s : DelayState), s.readPtr < delayBufferSize →
      (readAll s n).1 = (List.range n).map
        (fun k => s.buffer.getD ((s.readPtr + k) % delayBufferSize) 0) := by
  intro n
  induction n with
  | zero => intro s _; rfl
  | succ n ih =>
    intro s hr
    have hr' : (delayRead s).2.readPtr < delayBufferSize := by
      show (s.readPtr + 1) % delayBufferSize < delayBufferSize
      exact Nat.mod_lt _ delayBufferSize_pos
    show (delayRead s).1 :: (readAll (delayRead s).2 n).1 = _
    rw [ih (delayRead s).2 hr']
    rw [List.range_succ_eq_map, List.map_cons, List.map_map]
    congr 1
    · show s.buffer.getD s.readPtr 0 = s.buffer.getD ((s.readPtr + 0) % delayBufferSize) 0
      rw [Nat.add_zero, Nat.mod_eq_of_lt hr]
    · apply List.map_congr_left
      intro k _
      show s.buffer.getD (((s.readPtr + 1) % delayBufferSize + k) % delayBufferSize) 0
          = s.buffer.getD ((s.readPtr + Nat.succ k) % delayBufferSize) 0
      rw [Nat.mod_add_mod]
      congr 2
      omega

end BT

/-- C4: the Bluetooth variant's delay buffer has no configured lag at all —
both pointers start at 0, so reading immediately after writing returns the
just-written samples: writing s0..sN−1 from the initial state and then
reading N times yields s0..sN−1 unchanged (zero effective delay, no
priming zero-reads), while reads that precede any write return silence.
The read index never trails the write index by the configured 200 ms
(9600-sample) Bluetooth delay. -/
theorem delay_line_zero_lag :
    (∀ xs : List ℚ, xs.length ≤ BT.delayBufferSize →
      (BT.readAll (BT.writeAll BT.initDelay xs) xs.length).1 = xs) ∧
    (∀ n : Nat, (BT.readAll BT.initDelay n).1 = List.replicate n 0) := by
  constructor
  · intro xs hlen
    have hinitlen : BT.initDelay.buffer.length = BT.delayBufferSize := by
      show (List.replicate BT.delayBufferSize (0:ℚ)).length = BT.delayBufferSize
      rw [List.length_replicate]
    have hw0 : BT.initDelay.writePtr = 0 := rfl
    obtain ⟨h1, h2, h3⟩ := BT.writeAll_getD xs BT.initDelay hinitlen
      (by rw [hw0, Nat.zero_add]; exact hlen)
    rw [hw0] at h3
    simp only [Nat.zero_add, Nat.sub_zero] at h3
    have hrp : (BT.writeAll BT.initDelay xs).readPtr = 0 := h2
    rw [BT.readAll_spec xs.length _ (by rw [hrp]; exact BT.delayBufferSize_pos)]
    apply List.ext_getElem
    · rw [List.length_map, List.length_range]
    · intro i hi1 hi2
      have hi : i < xs.length := by
        rw [List.length_map, List.length_range] at hi1
        exact hi1
      rw [List.getElem_map, List.getElem_range, hrp, Nat.zero_add,
        Nat.mod_eq_of_lt (lt_of_lt_of_le hi hlen), h3 i]
      rw [if_pos ⟨Nat.zero_le i, hi⟩]
      rw [List.getD_eq_getElem?_getD, List.getElem?_eq_getElem hi]
      rfl
  · intro n
    rw [BT.readAll_spec n BT.initDelay BT.delayBufferSize_pos]
    have hz : ∀ k, BT.initDelay.buffer.getD ((BT.initDelay.readPtr + k) %
        BT.delayBufferSize) 0 = 0 := by
      intro k
      show (List.replicate BT.delayBufferSize (0:ℚ)).getD _ 0 = 0
      rw [List.getD_eq_getElem?_getD, List.getElem?_replicate]
      split <;> rfl
    rw [List.map_congr_left (fun k _ => hz k), List.map_const', List.length_range]

/-- Witness for C4 at a concrete input; it is also the failing input for
the specified behaviour: the very first read after the very first write
already returns the written sample (1), where a delay line with the
configured 9600-sample lag would still return silence (0). -/
theorem delay_line_zero_lag_witness :
    (BT.readAll (BT.writeAll BT.initDelay [(1:ℚ)]) 1).1 = [(1:ℚ)] :=
  delay_line_zero_lag.1 [(1:ℚ)]
    (by rw [List.length_singleton]; unfold BT.delayBufferSize; norm_num)

namespace NP

/-- One filter stage `{frequency, Q, gain}` of the configuration. -/
structure FilterStage where
  frequency : ℚ
  Q : ℚ
  gain : ℚ

/-- The `NoiseProcessor` configuration object set up in the constructor. -/
structure Config where
  predictionBufferSize : Nat
  patternLength : Nat
  lookAheadMs : Nat
  filterStages : List FilterStage

/-- The constructor's `this.config`. -/
def defaultConfig : Config :=
  { predictionBufferSize := 2048
    patternLength := 512
    lookAheadMs := 50
    filterStages :=
      [⟨40, 2.5, -15⟩, ⟨100, 3, -12⟩, ⟨135, 2, -10⟩, ⟨200, 1.5, -8⟩] }

/-- A partial update object (`newConfig`): fields absent from the update
are `none`. -/
structure ConfigUpdate where
  predictionBufferSize : Option Nat
  patternLength : Option Nat
  lookAheadMs : Option Nat
  filterStages : Option (List FilterStage)

/-- `updateConfig`'s merge:
`this.config = {...this.config, ...newConfig, filterStages:
newConfig.filterStages || this.config.filterStages}` — every provided
field replaces the old one and omitted fields are retained; no parameter
is inspected or validated. -/
def updateConfig (c : Config) (u : ConfigUpdate) : Config :=
  { predictionBufferSize := u.predictionBufferSize.getD c.predictionBufferSize
    patternLength := u.patternLength.getD c.patternLength
    lookAheadMs := u.lookAheadMs.getD c.lookAheadMs
    filterStages := u.filterStages.getD c.filterStages }

/-- The filter-node update loop of `updateConfig`:
`this.config.filterStages.forEach((stage, index) => { if
(this.nodes.filters[index]) { ...set frequency, Q, gain... } })` — filter
node `i` takes stage `i`'s parameters when stage `i` exists, and keeps its
old parameters otherwise; stages beyond the node count are ignored. -/
def applyStages : List FilterStage → List FilterStage → List FilterStage
  | [], _ => []
  | f :: fs, [] => f :: fs
  | _ :: fs, st :: sts => st :: applyStages fs sts

theorem applyStages_get? :
    ∀ (filters stages : List FilterStage) (i : Nat),
      i < stages.length → i < filters.length →
      (applyStages filters stages)[i]? = stages[i]? := by
  intro filters
  induction filters with
  | nil =>
    intro stages i _ hif
    exact absurd hif (by simp)
  | cons f fs ih =>
    intro stages i his hif
    cases stages with
    | nil => exact absurd his (by simp)
    | cons st sts =>
      have hred : applyStages (f :: fs) (st :: sts) = st :: applyStages fs sts := by
        simp [applyStages]
      cases i with
      | zero =>
        rw [hred]
        simp only [List.getElem?_cons_zero]
      | succ i =>
        rw [hred]
        simp only [List.getElem?_cons_succ]
        exact ih sts i (by simpa using his) (by simpa using hif)

end NP

/-- C7 counterexample: a configuration update carrying a filter stage
with negative center frequency and negative Q is accepted by
`updateConfig` — the prior valid configuration is replaced, not kept, and
no rejection of any kind occurs. -/
theorem config_update_counterexample :
    (NP.updateConfig NP.defaultConfig
      ⟨none, none, none, some [⟨-40, -1, 0⟩]⟩).filterStages
        = [⟨-40, -1, 0⟩] ∧
    ((NP.updateConfig NP.defaultConfig
      ⟨none, none, none, some [⟨-40, -1, 0⟩]⟩).filterStages
        ≠ NP.defaultConfig.filterStages) := by
  refine ⟨rfl, ?_⟩
  intro hcon
  have h1 : (1 : Nat) = 4 := by
    have h2 := congrArg List.length hcon
    simp only [NP.defaultConfig, NP.updateConfig, Option.getD_some,
      List.length_cons, List.length_nil] at h2
    exact h2
  norm_num at h1

/-- C7 (corrected): `updateConfig` performs no validation whatsoever —
every update, including one whose stages carry a negative frequency or
negative Q, is merged unconditionally: provided fields replace the prior
configuration, omitted fields are retained, and the (possibly invalid)
new stages are pushed onto the live filter nodes. -/
theorem config_update_no_validation :
    (∀ (c : NP.Config) (u : NP.ConfigUpdate) (stages : List NP.FilterStage),
      u.filterStages = some stages →
      (NP.updateConfig c u).filterStages = stages ∧
      (∀ (filters : List NP.FilterStage) (i : Nat),
        i < stages.length → i < filters.length →
        (NP.applyStages filters (NP.updateConfig c u).filterStages)[i]? =
          stages[i]?)) ∧
    (∀ (c : NP.Config) (u : NP.ConfigUpdate),
      u.filterStages = none →
      (NP.updateConfig c u).filterStages = c.filterStages) := by
  constructor
  · intro c u stages hu
    have hst : (NP.updateConfig c u).filterStages = stages := by
      show u.filterStages.getD c.filterStages = stages
      rw [hu]
      rfl
    refine ⟨hst, ?_⟩
    intro filters i his hif
    rw [hst]
    exact NP.applyStages_get? filters stages i his hif
  · intro c u hu
    show u.filterStages.getD c.filterStages = c.filterStages
    rw [hu]
    rfl

/-- Witness for (the corrected) C7 at a concrete input: the invalid
stage (negative frequency, negative Q) is installed verbatim. -/
theorem config_update_no_validation_witness :
    (NP.updateConfig NP.defaultConfig
      ⟨none, none, none, some [⟨-40, -1, 0⟩]⟩).filterStages = [⟨-40, -1, 0⟩] ∧
    (NP.applyStages NP.defaultConfig.filterStages
      (NP.updateConfig NP.defaultConfig
        ⟨none, none, none, some [⟨-40, -1, 0⟩]⟩).filterStages)[0]? =
      some ⟨-40, -1, 0⟩ ∧
    (NP.updateConfig NP.defaultConfig
      ⟨some 1024, none, none, none⟩).filterStages =
      NP.defaultConfig.filterStages := by
  obtain ⟨h1, h2⟩ := config_update_no_validation.1 NP.defaultConfig
    ⟨none, none, none, some [⟨-40, -1, 0⟩]⟩ [⟨-40, -1, 0⟩] rfl
  refine ⟨h1, ?_, config_update_no_validation.2 NP.defaultConfig
    ⟨some 1024, none, none, none⟩ rfl⟩
  have := h2 NP.defaultConfig.filterStages 0 (by norm_num)
    (by norm_num [NP.defaultConfig])
  rw [this]
  rfl
